import Mathlib

/-!
Verification of the chunking engine of the simple-rag repository
(`src/index_documents.py`): fixed-size / sentence / paragraph chunkers,
the strategy selector, the chunk-saving pipeline with per-chunk
embedding failures, and the pre-chunking sanitization step.

Texts are modelled as `List Char`, Python integers as `Int`, Python
slices by `pySlice` (negative-index semantics included), and the
`while` loop of `chunk_text_fixed_size` by a fuel-indexed recursion
`chunkLoop` whose fuel `len(text) + 1` is proved sufficient.
-/

/-- Normalise one Python slice endpoint against a list length:
negative indices count from the end, out-of-range indices clamp. -/
def pyIndex (len : Nat) (i : Int) : Nat :=
  if i < 0 then (i + (len : Int)).toNat else min i.toNat len

/-- Python `s[a:b]` (step 1) on a list of characters. -/
def pySlice (s : List Char) (a b : Int) : List Char :=
  (s.take (pyIndex s.length b)).drop (pyIndex s.length a)

/-- The two error kinds raised by the chunking engine
(`ValueError` in the source, named as in the spec). -/
inductive ChunkError
  | invalidChunkConfig
  | unsupportedStrategy
deriving DecidableEq

/-- The `while start < text_length` loop of `chunk_text_fixed_size`
(src/index_documents.py lines 58-66), fuel-indexed: `none` means the
fuel ran out before the loop finished. -/
def chunkLoop (text : List Char) (chunk_size overlap : Int) : Int → Nat → Option (List (List Char))
  | _, 0 => none
  | start, fuel + 1 =>
    if start < (text.length : Int) then
      if (text.length : Int) ≤ start + chunk_size then some [pySlice text start (start + chunk_size)]
      else
        match chunkLoop text chunk_size overlap (start + chunk_size - overlap) fuel with
        | some rest => some (pySlice text start (start + chunk_size) :: rest)
        | none => none
    else some []

/-- `chunk_text_fixed_size(text, chunk_size, overlap)`
(src/index_documents.py lines 39-68).  The fuel `text.length + 1` is
sufficient whenever the config check passes (`chunkLoop_isSome`), so
the `none` fallback is never reached. -/
def chunk_text_fixed_size (text : List Char) (chunk_size overlap : Int) :
    Except ChunkError (List (List Char)) :=
  if chunk_size ≤ overlap then .error .invalidChunkConfig
  else
    match chunkLoop text chunk_size overlap 0 (text.length + 1) with
    | some cs => .ok cs
    | none => .ok []

/-- Characters matched by `[.!?\n]` in the sentence-split pattern. -/
def isSentDelim (c : Char) : Bool :=
  c == '.' || c == '!' || c == '?' || c == '\n'

/-- ASCII whitespace as matched by Python `\s` / stripped by `str.strip`. -/
def pyIsSpace (c : Char) : Bool :=
  c == ' ' || c == '\t' || c == '\n' || c == '\r' || c == '\x0b' || c == '\x0c'

/-- Python `str.strip()`. -/
def pyStrip (s : List Char) : List Char :=
  ((s.dropWhile pyIsSpace).reverse.dropWhile pyIsSpace).reverse

/-- Left-to-right scan realising `re.split(r'(?<=[.!?\n])\s+', text)`:
`inRun = true` while consuming the whitespace of a current match
(greedy `\s+`), `prev` is the previously consumed character (the
lookbehind), `seg` the current segment reversed.  A match begins
exactly when the previous character is a sentence delimiter and the
current one is whitespace. -/
def sentSplitAux : List Char → Bool → Option Char → List Char → List (List Char)
  | [], _, _, seg => [seg.reverse]
  | c :: rest, true, _, _ =>
    if pyIsSpace c then sentSplitAux rest true none []
    else sentSplitAux rest false (some c) [c]
  | c :: rest, false, prev, seg =>
    if (match prev with | some p => isSentDelim p | none => false) && pyIsSpace c then
      seg.reverse :: sentSplitAux rest true none []
    else sentSplitAux rest false (some c) (c :: seg)

/-- `chunk_text_by_sentences(text)` (src/index_documents.py lines 70-89). -/
def chunk_text_by_sentences (text : List Char) : List (List Char) :=
  ((sentSplitAux text false none []).map pyStrip).filter (fun s => !s.isEmpty)

/-- Python `text.split('\n\n')`: split on non-overlapping occurrences
of the two-newline separator, left to right. -/
def splitOnBlank : List Char → List (List Char)
  | [] => [[]]
  | '\n' :: '\n' :: rest => [] :: splitOnBlank rest
  | c :: rest =>
    match splitOnBlank rest with
    | seg :: segs => (c :: seg) :: segs
    | [] => [[c]]

/-- `chunk_text_by_paragraphs(text)` (src/index_documents.py lines 91-107). -/
def chunk_text_by_paragraphs (text : List Char) : List (List Char) :=
  ((splitOnBlank text).map pyStrip).filter (fun s => !s.isEmpty)

/-- `chunk_text(text, strategy, chunk_size, overlap)`
(src/index_documents.py lines 109-129): the strategy selector. -/
def chunk_text (text : List Char) (strategy : String) (chunk_size overlap : Int) :
    Except ChunkError (List (List Char)) :=
  if strategy == "fixed" then chunk_text_fixed_size text chunk_size overlap
  else if strategy == "sentence" then .ok (chunk_text_by_sentences text)
  else if strategy == "paragraph" then .ok (chunk_text_by_paragraphs text)
  else .error .unsupportedStrategy

/-- One chunk markdown file written by `save_chunks`. -/
structure ChunkFile where
  name : String
  content : List Char
deriving DecidableEq

/-- One entry of `embeddings_data` in `save_chunks`
(src/index_documents.py lines 308-314); `F` is the number type of the
embedding vector (the pipeline never inspects vector elements). -/
structure EmbeddingEntry (F : Type) where
  chunk_id : Nat
  chunk_file : String
  text : List Char
  embedding : List F
  embedding_dim : Nat

/-- Python truthiness of the optional `api_key` string. -/
def pyTruthyStr : Option String → Bool
  | some s => !(s == "")
  | none => false

/-- The preview text `chunk[:200] + "..." if len(chunk) > 200 else chunk`. -/
def previewText (chunk : List Char) : List Char :=
  if 200 < chunk.length then chunk.take 200 ++ "...".data else chunk

/-- The markdown content written for chunk `i` of `n`. -/
def chunkFileContent (i n : Nat) (chunk : List Char) : List Char :=
  ("<div dir=\"rtl\">\n\n# Chunk " ++ toString i ++ "/" ++ toString n ++ "\n\n").data
    ++ chunk ++ "\n\n</div>".data

/-- The `for i, chunk in enumerate(chunks, 1)` loop of `save_chunks`
(src/index_documents.py lines 290-314).  `generate_embedding` is the
external embedding collaborator, returning `none` on failure (the
source catches the exception and returns `None`); a chunk enters
`embeddings_data` only when the result is truthy (non-`None` and
non-empty, Python `if embedding:`). -/
def saveChunksLoop {F : Type} (n : Nat) (enable_embedding : Bool) (api_key : Option String)
    (generate_embedding : List Char → Option (List F)) :
    Nat → List (List Char) → List ChunkFile × List (EmbeddingEntry F)
  | _, [] => ([], [])
  | i, chunk :: rest =>
    let chunk_filename := "chunk_" ++ toString i ++ ".md"
    let r := saveChunksLoop n enable_embedding api_key generate_embedding (i + 1) rest
    let entries :=
      if enable_embedding && pyTruthyStr api_key then
        match generate_embedding chunk with
        | some v =>
          if v.isEmpty then r.2
          else ⟨i, chunk_filename, previewText chunk, v, v.length⟩ :: r.2
        | none => r.2
      else r.2
    (⟨chunk_filename, chunkFileContent i n chunk⟩ :: r.1, entries)

/-- `save_chunks(chunks, ...)` (src/index_documents.py lines 278-339),
restricted to its pure content: the list of chunk files written and
the `embeddings_data` records collected. -/
def save_chunks {F : Type} (chunks : List (List Char)) (enable_embedding : Bool)
    (api_key : Option String) (generate_embedding : List Char → Option (List F)) :
    List ChunkFile × List (EmbeddingEntry F) :=
  saveChunksLoop chunks.length enable_embedding api_key generate_embedding 1 chunks

/-- Python `s.replace(pat, '')`, fuel-indexed: scan left to right,
remove each non-overlapping occurrence of `pat`, continue after it. -/
def removeAllAux (pat : List Char) : Nat → List Char → List Char
  | 0, s => s
  | _ + 1, [] => []
  | fuel + 1, c :: rest =>
    if pat.isPrefixOf (c :: rest) then removeAllAux pat fuel (rest.drop (pat.length - 1))
    else c :: removeAllAux pat fuel rest

/-- Python `s.replace(pat, '')`; `s.length` fuel suffices because every
step consumes at least one character. -/
def removeAll (pat s : List Char) : List Char :=
  removeAllAux pat s.length s

/-- The opening RTL wrapper literal `<div dir="rtl">`. -/
def rtlOpen : List Char := "<div dir=\"rtl\">".data

/-- The closing wrapper literal `</div>`. -/
def rtlClose : List Char := "</div>".data

/-- The pre-chunking sanitization of `convert_file`
(src/index_documents.py line 364):
`content.replace('<div dir="rtl">', '').replace('</div>', '').strip()`. -/
def sanitize_content (content : List Char) : List Char :=
  pyStrip (removeAll rtlClose (removeAll rtlOpen content))

/-- Reconstruction rule of the spec: the first chunk, then each
subsequent chunk from offset `O` onward. -/
def reconstructFixed (O : Nat) : List (List Char) → List Char
  | [] => []
  | c :: rest => c ++ (rest.map (List.drop O)).flatten

/-- The overlap relation between two consecutive chunks: the last `O`
characters of the first equal the first `O` characters of the second. -/
def overlapAgree (O : Nat) (a b : List Char) : Prop :=
  a.drop (a.length - O) = b.take O

/-- Nat-indexed mirror of `chunkLoop`, used for the proofs once the
parameters are known to be positive (`chunkLoop_natCast`). -/
def natLoopO (text : List Char) (S O : Nat) : Nat → Nat → Option (List (List Char))
  | _, 0 => none
  | start, fuel + 1 =>
    if start < text.length then
      if text.length ≤ start + S then some [(text.take (start + S)).drop start]
      else
        match natLoopO text S O (start + S - O) fuel with
        | some rest => some ((text.take (start + S)).drop start :: rest)
        | none => none
    else some []

/-- Boolean substring occurrence test: `pat` occurs somewhere in `s`. -/
def containsSub (pat s : List Char) : Bool :=
  s.tails.any (fun t => pat.isPrefixOf t)

lemma pyIndex_natCast (len a : Nat) : pyIndex len (a : Int) = min a len := by
  unfold pyIndex
  rw [if_neg (by omega)]
  have : (a : Int).toNat = a := by omega
  rw [this]

lemma pySlice_natCast (s : List Char) (a b : Nat) :
    pySlice s (a : Int) (b : Int) = (s.take b).drop a := by
  unfold pySlice
  rw [pyIndex_natCast, pyIndex_natCast]
  rcases le_or_lt b s.length with hb | hb
  · rw [min_eq_left hb]
    rcases le_or_lt a s.length with ha | ha
    · rw [min_eq_left ha]
    · rw [min_eq_right ha.le,
        List.drop_eq_nil_of_le (by simp [List.length_take]),
        List.drop_eq_nil_of_le (by simp [List.length_take]; omega)]
  · rw [min_eq_right hb.le, List.take_length, List.take_of_length_le hb.le]
    rcases le_or_lt a s.length with ha | ha
    · rw [min_eq_left ha]
    · rw [min_eq_right ha.le, List.drop_eq_nil_of_le le_rfl,
        List.drop_eq_nil_of_le ha.le]

lemma chunkLoop_isSome (text : List Char) (chunk_size overlap : Int)
    (h : overlap < chunk_size) :
    ∀ (fuel : Nat) (start : Int), ((text.length : Int) - start).toNat < fuel →
      (chunkLoop text chunk_size overlap start fuel).isSome := by
  intro fuel
  induction fuel with
  | zero => intro start hs; omega
  | succ n ih =>
    intro start hs
    simp only [chunkLoop]
    by_cases h1 : start < (text.length : Int)
    · rw [if_pos h1]
      by_cases h2 : (text.length : Int) ≤ start + chunk_size
      · rw [if_pos h2]; rfl
      · rw [if_neg h2]
        obtain ⟨rest, hrest⟩ := Option.isSome_iff_exists.mp
          (ih (start + chunk_size - overlap) (by omega))
        rw [hrest]
        rfl
    · rw [if_neg h1]; rfl

lemma chunkLoop_natCast (text : List Char) (S O : Nat) (hOS : O ≤ S) :
    ∀ (fuel : Nat) (start : Nat),
      chunkLoop text (S : Int) (O : Int) (start : Int) fuel = natLoopO text S O start fuel := by
  intro fuel
  induction fuel with
  | zero => intro start; rfl
  | succ n ih =>
    intro start
    simp only [chunkLoop, natLoopO]
    have hsum : ((start : Int) + (S : Int)) = ((start + S : Nat) : Int) := by push_cast; ring
    by_cases h1 : start < text.length
    · rw [if_pos (by exact_mod_cast h1), if_pos h1]
      by_cases h2 : text.length ≤ start + S
      · rw [if_pos (by omega), if_pos h2, hsum, pySlice_natCast]
      · rw [if_neg (by omega), if_neg h2]
        have harg : ((start : Int) + (S : Int) - (O : Int)) = ((start + S - O : Nat) : Int) := by
          omega
        rw [harg, ih (start + S - O), hsum, pySlice_natCast]
    · rw [if_neg (by exact_mod_cast h1), if_neg h1]

lemma fixed_size_ok (text : List Char) (S O : Nat) (hSO : O < S) :
    ∃ cs, chunk_text_fixed_size text (S : Int) (O : Int) = Except.ok cs ∧
      natLoopO text S O 0 (text.length + 1) = some cs := by
  unfold chunk_text_fixed_size
  rw [if_neg (by omega)]
  obtain ⟨cs, hcs⟩ := Option.isSome_iff_exists.mp
    (chunkLoop_isSome text (S : Int) (O : Int) (by omega) (text.length + 1) 0 (by omega))
  have hb : chunkLoop text (S : Int) (O : Int) 0 (text.length + 1)
      = natLoopO text S O 0 (text.length + 1) := by
    have := chunkLoop_natCast text S O (by omega) (text.length + 1) 0
    simpa using this
  rw [hcs]
  exact ⟨cs, rfl, by rw [← hb, hcs]⟩

lemma natLoopO_head (t : List Char) (S O : Nat) :
    ∀ (fuel start : Nat) (l : List (List Char)),
      natLoopO t S O start fuel = some l → start < t.length →
      ∃ rest, l = (t.take (start + S)).drop start :: rest := by
  intro fuel start l h hs
  cases fuel with
  | zero => simp [natLoopO] at h
  | succ n =>
    simp only [natLoopO] at h
    rw [if_pos hs] at h
    by_cases hbr : t.length ≤ start + S
    · rw [if_pos hbr] at h
      exact ⟨[], (Option.some.inj h).symm⟩
    · rw [if_neg hbr] at h
      rcases hm : natLoopO t S O (start + S - O) n with _ | rest
      · rw [hm] at h; simp at h
      · rw [hm] at h
        exact ⟨rest, (Option.some.inj h).symm⟩

lemma natLoopO_recon (t : List Char) (S O : Nat) (hO : 0 < O) (hSO : O < S) :
    ∀ (fuel start : Nat) (l : List (List Char)),
      natLoopO t S O start fuel = some l → start < t.length →
      reconstructFixed O l = t.drop start := by
  intro fuel
  induction fuel with
  | zero => intro start l h hs; simp [natLoopO] at h
  | succ n ih =>
    intro start l h hs
    simp only [natLoopO] at h
    rw [if_pos hs] at h
    by_cases hbr : t.length ≤ start + S
    · rw [if_pos hbr] at h
      obtain rfl : [(t.take (start + S)).drop start] = l := Option.some.inj h
      simp [reconstructFixed, List.take_of_length_le hbr]
    · rw [if_neg hbr] at h
      rcases hm : natLoopO t S O (start + S - O) n with _ | rest
      · rw [hm] at h; simp at h
      · rw [hm] at h
        obtain rfl : (t.take (start + S)).drop start :: rest = l := Option.some.inj h
        have hs' : start + S - O < t.length := by omega
        obtain ⟨rt, hrt⟩ := natLoopO_head t S O n (start + S - O) rest hm hs'
        have hrec := ih (start + S - O) rest hm hs'
        rw [hrt] at hrec ⊢
        simp only [reconstructFixed, List.map_cons, List.flatten_cons] at hrec ⊢
        have hlen : O ≤ ((t.take (start + S - O + S)).drop (start + S - O)).length := by
          simp only [List.length_drop, List.length_take]
          omega
        rw [← List.drop_append_of_le_length hlen, hrec, List.drop_drop,
          show start + S - O + O = start + S from by omega]
        conv_rhs => rw [← List.take_append_drop (start + S) t]
        rw [List.drop_append_of_le_length (by simp only [List.length_take]; omega)]

lemma natLoopO_chain (t : List Char) (S O : Nat) (hO : 0 < O) (hSO : O < S) :
    ∀ (fuel start : Nat) (l : List (List Char)),
      natLoopO t S O start fuel = some l → start < t.length →
      l.Chain' (overlapAgree O) := by
  intro fuel
  induction fuel with
  | zero => intro start l h hs; simp [natLoopO] at h
  | succ n ih =>
    intro start l h hs
    simp only [natLoopO] at h
    rw [if_pos hs] at h
    by_cases hbr : t.length ≤ start + S
    · rw [if_pos hbr] at h
      obtain rfl : [(t.take (start + S)).drop start] = l := Option.some.inj h
      simp
    · rw [if_neg hbr] at h
      rcases hm : natLoopO t S O (start + S - O) n with _ | rest
      · rw [hm] at h; simp at h
      · rw [hm] at h
        obtain rfl : (t.take (start + S)).drop start :: rest = l := Option.some.inj h
        have hs' : start + S - O < t.length := by omega
        obtain ⟨rt, hrt⟩ := natLoopO_head t S O n (start + S - O) rest hm hs'
        have hchain := ih (start + S - O) rest hm hs'
        rw [hrt] at hchain ⊢
        rw [List.chain'_cons]
        refine ⟨?_, hchain⟩
        unfold overlapAgree
        have hclen : ((t.take (start + S)).drop start).length = S := by
          simp only [List.length_drop, List.length_take]
          omega
        rw [hclen, List.drop_drop, List.drop_take, List.drop_take,
          show start + S - (start + (S - O)) = O from by omega,
          show start + S - O + S - (start + S - O) = S from by omega,
          show start + (S - O) = start + S - O from by omega,
          List.take_take, show O ⊓ S = O from by omega]

lemma natLoopO_mem (t : List Char) (S O : Nat) :
    ∀ (fuel start : Nat) (l : List (List Char)),
      natLoopO t S O start fuel = some l →
      ∀ c ∈ l, c.length ≤ S ∧ c <:+: t := by
  intro fuel
  induction fuel with
  | zero => intro start l h; simp [natLoopO] at h
  | succ n ih =>
    intro start l h
    simp only [natLoopO] at h
    by_cases hs : start < t.length
    · rw [if_pos hs] at h
      have hone : ∀ c, c = (t.take (start + S)).drop start → c.length ≤ S ∧ c <:+: t := by
        intro c hc
        subst hc
        constructor
        · simp only [List.length_drop, List.length_take]
          omega
        · refine ⟨t.take start, t.drop (start + S), ?_⟩
          rw [show t.take start = (t.take (start + S)).take start from by
              rw [List.take_take]; congr 1; omega,
            List.take_append_drop, List.take_append_drop]
      by_cases hbr : t.length ≤ start + S
      · rw [if_pos hbr] at h
        obtain rfl : [(t.take (start + S)).drop start] = l := Option.some.inj h
        intro c hc
        rw [List.mem_singleton] at hc
        exact hone c hc
      · rw [if_neg hbr] at h
        rcases hm : natLoopO t S O (start + S - O) n with _ | rest
        · rw [hm] at h; simp at h
        · rw [hm] at h
          obtain rfl : (t.take (start + S)).drop start :: rest = l := Option.some.inj h
          intro c hc
          rcases List.mem_cons.mp hc with hc | hc
          · exact hone c hc
          · exact ih (start + S - O) rest hm c hc
    · rw [if_neg hs] at h
      obtain rfl : ([] : List (List Char)) = l := Option.some.inj h
      intro c hc
      simp at hc

lemma ceil_step (m d : Nat) (hm : 0 < m) (hd : 0 < d) :
    (m + d - 1) / d = (m - d + d - 1) / d + 1 := by
  rw [show m + d - 1 = (m - 1) + d from by omega, Nat.add_div_right _ hd]
  congr 1
  rcases le_or_lt m d with h | h
  · rw [show m - d + d - 1 = d - 1 from by omega, Nat.div_eq_of_lt (by omega),
      Nat.div_eq_of_lt (by omega)]
  · rw [show m - d + d - 1 = m - 1 from by omega]

lemma natLoopO_length (t : List Char) (S O : Nat) (hSO : O < S) :
    ∀ (fuel start : Nat) (l : List (List Char)),
      natLoopO t S O start fuel = some l → start < t.length →
      l.length = 1 + (t.length - start - S + (S - O) - 1) / (S - O) := by
  intro fuel
  induction fuel with
  | zero => intro start l h hs; simp [natLoopO] at h
  | succ n ih =>
    intro start l h hs
    simp only [natLoopO] at h
    rw [if_pos hs] at h
    by_cases hbr : t.length ≤ start + S
    · rw [if_pos hbr] at h
      obtain rfl : [(t.take (start + S)).drop start] = l := Option.some.inj h
      rw [show t.length - start - S = 0 from by omega,
        show (0 + (S - O) - 1) / (S - O) = 0 from Nat.div_eq_of_lt (by omega)]
      simp
    · rw [if_neg hbr] at h
      rcases hm : natLoopO t S O (start + S - O) n with _ | rest
      · rw [hm] at h; simp at h
      · rw [hm] at h
        obtain rfl : (t.take (start + S)).drop start :: rest = l := Option.some.inj h
        have hs' : start + S - O < t.length := by omega
        have hlen := ih (start + S - O) rest hm hs'
        have hstep : (t.length - start - S + (S - O) - 1) / (S - O)
            = (t.length - (start + S - O) - S + (S - O) - 1) / (S - O) + 1 := by
          rw [show t.length - (start + S - O) - S = t.length - start - S - (S - O) from by
            omega]
          exact ceil_step (t.length - start - S) (S - O) (by omega) (by omega)
        rw [List.length_cons, hlen, hstep]
        ring

lemma fixed_ok_natLoopO (t : List Char) (S O : Nat) (hSO : O < S)
    (cs : List (List Char))
    (hcs : chunk_text_fixed_size t (S : Int) (O : Int) = Except.ok cs) :
    natLoopO t S O 0 (t.length + 1) = some cs := by
  obtain ⟨cs', hok, hnat⟩ := fixed_size_ok t S O hSO
  rw [hcs] at hok
  rwa [← Except.ok.inj hok] at hnat

/-- C1: for S > O > 0, the first chunk followed by every later chunk
from offset O onward concatenates back to the original text. -/
theorem claim_C1 (t : List Char) (S O : Nat) (hO : 0 < O) (hSO : O < S)
    (cs : List (List Char))
    (hcs : chunk_text_fixed_size t (S : Int) (O : Int) = Except.ok cs) :
    reconstructFixed O cs = t := by
  have hnat := fixed_ok_natLoopO t S O hSO cs hcs
  rcases Nat.eq_zero_or_pos t.length with hL | hL
  · obtain rfl : t = [] := List.length_eq_zero.mp hL
    have h0 : natLoopO [] S O 0 (([] : List Char).length + 1) = some [] := rfl
    rw [h0] at hnat
    rw [← Option.some.inj hnat]
    rfl
  · simpa using natLoopO_recon t S O hO hSO (t.length + 1) 0 cs hnat hL

theorem claim_C1_witness :
    chunk_text_fixed_size "abcde".data 3 1 = Except.ok ["abc".data, "cde".data] ∧
    reconstructFixed 1 ["abc".data, "cde".data] = "abcde".data :=
  ⟨rfl, claim_C1 "abcde".data 3 1 (by decide) (by decide) ["abc".data, "cde".data] rfl⟩

/-- C2: for S > O > 0 the number of chunks is the ceiling of
(L - O) / (S - O) when L > O, and exactly 1 when 0 < L ≤ S. -/
theorem claim_C2 (t : List Char) (S O : Nat) (hO : 0 < O) (hSO : O < S)
    (cs : List (List Char))
    (hcs : chunk_text_fixed_size t (S : Int) (O : Int) = Except.ok cs) :
    (O < t.length → cs.length = (t.length - O + (S - O) - 1) / (S - O)) ∧
    (0 < t.length → t.length ≤ S → cs.length = 1) := by
  have hnat := fixed_ok_natLoopO t S O hSO cs hcs
  constructor
  · intro hOL
    have hlen := natLoopO_length t S O hSO (t.length + 1) 0 cs hnat (by omega)
    rcases le_or_lt t.length S with hc | hc
    · rw [hlen, show t.length - 0 - S = 0 from by omega,
        show (0 + (S - O) - 1) / (S - O) = 0 from Nat.div_eq_of_lt (by omega),
        show (t.length - O + (S - O) - 1) / (S - O) = 1 from
          Nat.div_eq_of_lt_le (by omega) (by omega)]
    · rw [hlen,
        show t.length - O + (S - O) - 1 = (t.length - 0 - S + (S - O) - 1) + (S - O) from by
          omega,
        Nat.add_div_right _ (by omega)]
      exact Nat.add_comm _ _
  · intro h1 h2
    have hlen := natLoopO_length t S O hSO (t.length + 1) 0 cs hnat h1
    rw [hlen, show t.length - 0 - S = 0 from by omega,
      show (0 + (S - O) - 1) / (S - O) = 0 from Nat.div_eq_of_lt (by omega)]

theorem claim_C2_witness :
    chunk_text_fixed_size "abcde".data 3 1 = Except.ok ["abc".data, "cde".data] ∧
    (["abc".data, "cde".data] : List (List Char)).length
      = ("abcde".data.length - 1 + (3 - 1) - 1) / (3 - 1) :=
  ⟨rfl,
    (claim_C2 "abcde".data 3 1 (by decide) (by decide) ["abc".data, "cde".data] rfl).1
      (by decide)⟩

/-- C5: for S > O > 0, every pair of consecutive chunks agrees on the
overlap: the last O characters of one equal the first O of the next
(proved for all consecutive pairs, final pair included). -/
theorem claim_C5 (t : List Char) (S O : Nat) (hO : 0 < O) (hSO : O < S)
    (cs : List (List Char))
    (hcs : chunk_text_fixed_size t (S : Int) (O : Int) = Except.ok cs) :
    ∀ (i : Nat) (h : i + 1 < cs.length),
      overlapAgree O (cs.get ⟨i, by omega⟩) (cs.get ⟨i + 1, h⟩) := by
  intro i h
  have hnat := fixed_ok_natLoopO t S O hSO cs hcs
  rcases Nat.eq_zero_or_pos t.length with hL | hL
  · obtain rfl : t = [] := List.length_eq_zero.mp hL
    have h0 : natLoopO [] S O 0 (([] : List Char).length + 1) = some [] := rfl
    rw [h0] at hnat
    obtain rfl := Option.some.inj hnat
    simp at h
  · have hch := natLoopO_chain t S O hO hSO (t.length + 1) 0 cs hnat hL
    exact List.chain'_iff_get.mp hch i (by omega)

theorem claim_C5_witness :
    overlapAgree 1
      ((["abc".data, "cde".data] : List (List Char)).get ⟨0, by decide⟩)
      ((["abc".data, "cde".data] : List (List Char)).get ⟨1, by decide⟩) :=
  claim_C5 "abcde".data 3 1 (by decide) (by decide) ["abc".data, "cde".data] rfl 0
    (by decide)

/-- C6: for valid config, the empty text gives zero chunks, a text with
0 < length ≤ S gives exactly the whole text as one chunk, and every
chunk has length at most S and is a contiguous piece of the text
(never padded). -/
theorem claim_C6 (S O : Nat) (hO : 0 < O) (hSO : O < S) :
    chunk_text_fixed_size [] (S : Int) (O : Int) = Except.ok [] ∧
    (∀ t : List Char, 0 < t.length → t.length ≤ S →
      chunk_text_fixed_size t (S : Int) (O : Int) = Except.ok [t]) ∧
    (∀ (t : List Char) (cs : List (List Char)),
      chunk_text_fixed_size t (S : Int) (O : Int) = Except.ok cs →
      ∀ c ∈ cs, c.length ≤ S ∧ c <:+: t) := by
  refine ⟨?_, ?_, ?_⟩
  · obtain ⟨cs, hok, hnat⟩ := fixed_size_ok [] S O hSO
    have h0 : natLoopO [] S O 0 (([] : List Char).length + 1) = some [] := rfl
    rw [h0] at hnat
    rw [hok, ← Option.some.inj hnat]
  · intro t h1 h2
    obtain ⟨cs, hok, hnat⟩ := fixed_size_ok t S O hSO
    have hone : natLoopO t S O 0 (t.length + 1) = some [t] := by
      simp only [natLoopO]
      rw [if_pos (show (0 : Nat) < t.length from h1),
        if_pos (show t.length ≤ 0 + S from by omega), List.drop_zero,
        List.take_of_length_le (show t.length ≤ 0 + S from by omega)]
    rw [hone] at hnat
    rw [hok, Option.some.inj hnat]
  · intro t cs hcs c hc
    exact natLoopO_mem t S O (t.length + 1) 0 cs (fixed_ok_natLoopO t S O hSO cs hcs) c hc

theorem claim_C6_witness :
    chunk_text_fixed_size [] ((3 : Nat) : Int) ((1 : Nat) : Int) = Except.ok [] ∧
    chunk_text_fixed_size "ab".data ((3 : Nat) : Int) ((1 : Nat) : Int)
      = Except.ok ["ab".data] ∧
    ("abc".data.length ≤ 3 ∧ "abc".data <:+: "abc".data) :=
  ⟨(claim_C6 3 1 (by decide) (by decide)).1,
    (claim_C6 3 1 (by decide) (by decide)).2.1 "ab".data (by decide) (by decide),
    (claim_C6 3 1 (by decide) (by decide)).2.2 "abc".data ["abc".data] rfl "abc".data
      (List.mem_singleton.mpr rfl)⟩

/-- C10: for any integers with chunk_size > overlap (zero and negative
values included), the loop terminates: fuel len(text)+1 suffices, and
chunk_text_fixed_size returns a result. -/
theorem claim_C10 (text : List Char) (chunk_size overlap : Int)
    (h : overlap < chunk_size) :
    (chunkLoop text chunk_size overlap 0 (text.length + 1)).isSome = true ∧
    ∃ cs, chunk_text_fixed_size text chunk_size overlap = Except.ok cs ∧
      chunkLoop text chunk_size overlap 0 (text.length + 1) = some cs := by
  have hs := chunkLoop_isSome text chunk_size overlap h (text.length + 1) 0 (by omega)
  refine ⟨hs, ?_⟩
  obtain ⟨cs, hcs⟩ := Option.isSome_iff_exists.mp hs
  refine ⟨cs, ?_, hcs⟩
  unfold chunk_text_fixed_size
  rw [if_neg (by omega), hcs]

theorem claim_C10_witness :
    ((-2 : Int) < (0 : Int)) ∧
    (chunkLoop "abc".data 0 (-2) 0 ("abc".data.length + 1)).isSome = true :=
  ⟨by decide, (claim_C10 "abc".data 0 (-2) (by decide)).1⟩

/-- C4 (counterexample): with size 5 and overlap 0 — a non-positive
overlap that passes the size > overlap check — the function does not
fail; it returns a chunk list, contradicting the claim that
non-positive sizing always raises InvalidChunkConfig. -/
theorem claim_C4_counterexample :
    chunk_text_fixed_size "ab".data 5 0 = Except.ok ["ab".data] ∧
    chunk_text_fixed_size "ab".data 5 0 ≠ Except.error ChunkError.invalidChunkConfig := by
  refine ⟨rfl, ?_⟩
  intro hcontra
  rw [show chunk_text_fixed_size "ab".data 5 0 = Except.ok ["ab".data] from rfl] at hcontra
  exact Except.noConfusion hcontra

/-- C4 (amended): chunk_text_fixed_size fails with InvalidChunkConfig,
before emitting any chunk, exactly when size ≤ overlap; zero or
negative sizing that satisfies size > overlap is accepted and
produces a result. -/
theorem claim_C4_amended (text : List Char) (chunk_size overlap : Int) :
    (chunk_size ≤ overlap →
      chunk_text_fixed_size text chunk_size overlap
        = Except.error ChunkError.invalidChunkConfig) ∧
    (overlap < chunk_size →
      ∃ cs, chunk_text_fixed_size text chunk_size overlap = Except.ok cs) := by
  constructor
  · intro h
    unfold chunk_text_fixed_size
    rw [if_pos h]
  · intro h
    obtain ⟨cs, hcs⟩ := Option.isSome_iff_exists.mp
      (chunkLoop_isSome text chunk_size overlap h (text.length + 1) 0 (by omega))
    refine ⟨cs, ?_⟩
    unfold chunk_text_fixed_size
    rw [if_neg (by omega), hcs]

theorem claim_C4_amended_witness :
    ((1 : Int) ≤ (3 : Int) ∧
      chunk_text_fixed_size "ab".data 1 3 = Except.error ChunkError.invalidChunkConfig) ∧
    ((0 : Int) < (5 : Int) ∧
      ∃ cs, chunk_text_fixed_size "ab".data 5 0 = Except.ok cs) :=
  ⟨⟨by decide, (claim_C4_amended "ab".data 1 3).1 (by decide)⟩,
    ⟨by decide, (claim_C4_amended "ab".data 5 0).2 (by decide)⟩⟩

lemma saveChunksLoop_files_length {F : Type} (n : Nat) (en : Bool) (key : Option String)
    (embed : List Char → Option (List F)) :
    ∀ (i : Nat) (chunks : List (List Char)),
      (saveChunksLoop n en key embed i chunks).1.length = chunks.length := by
  intro i chunks
  induction chunks generalizing i with
  | nil => rfl
  | cons c rest ih => simp [saveChunksLoop, ih]


lemma saveChunksLoop_entries_spec {F : Type} (n : Nat) (en : Bool) (key : Option String)
    (embed : List Char → Option (List F)) :
    ∀ (chunks : List (List Char)) (i : Nat) (e : EmbeddingEntry F),
      e ∈ (saveChunksLoop n en key embed i chunks).2 →
      ∃ (k : Nat) (hk : k < chunks.length) (v : List F),
        e.chunk_id = i + k ∧ embed (chunks.get ⟨k, hk⟩) = some v ∧ v.isEmpty = false := by
  intro chunks
  induction chunks with
  | nil => intro i e he; simp [saveChunksLoop] at he
  | cons c rest ih =>
    intro i e he
    simp only [saveChunksLoop] at he
    by_cases hen : (en && pyTruthyStr key) = true
    · rw [if_pos hen] at he
      split at he
      next v heq =>
        split at he
        next hv =>
          obtain ⟨k, hk, w, h1, h2, h3⟩ := ih (i + 1) e he
          exact ⟨k + 1, by simp; omega, w, by omega, h2, h3⟩
        next hv =>
          rcases List.mem_cons.mp he with rfl | he
          · exact ⟨0, by simp, v, by simp, heq, by simpa using hv⟩
          · obtain ⟨k, hk, w, h1, h2, h3⟩ := ih (i + 1) e he
            exact ⟨k + 1, by simp; omega, w, by omega, h2, h3⟩
      next heq =>
        obtain ⟨k, hk, w, h1, h2, h3⟩ := ih (i + 1) e he
        exact ⟨k + 1, by simp; omega, w, by omega, h2, h3⟩
    · rw [if_neg hen] at he
      obtain ⟨k, hk, w, h1, h2, h3⟩ := ih (i + 1) e he
      exact ⟨k + 1, by simp; omega, w, by omega, h2, h3⟩

lemma saveChunksLoop_entries_present {F : Type} (n : Nat) (en : Bool) (key : Option String)
    (embed : List Char → Option (List F)) (hen : (en && pyTruthyStr key) = true) :
    ∀ (chunks : List (List Char)) (i k : Nat) (hk : k < chunks.length) (v : List F),
      embed (chunks.get ⟨k, hk⟩) = some v → v.isEmpty = false →
      ∃ e ∈ (saveChunksLoop n en key embed i chunks).2, e.chunk_id = i + k := by
  intro chunks
  induction chunks with
  | nil => intro i k hk; simp at hk
  | cons c rest ih =>
    intro i k hk v hemb hv
    simp only [saveChunksLoop]
    rw [if_pos hen]
    cases k with
    | zero =>
      rw [show ((c :: rest).get ⟨0, hk⟩) = c from rfl] at hemb
      split
      next w heq =>
        rw [hemb] at heq
        obtain rfl := Option.some.inj heq
        rw [if_neg (by simp [hv])]
        exact ⟨_, List.mem_cons_self _ _, by simp⟩
      next heq =>
        rw [hemb] at heq
        exact Option.noConfusion heq
    | succ k' =>
      have hk' : k' < rest.length := by simp at hk; omega
      obtain ⟨e, he, hid⟩ := ih (i + 1) k' hk' v hemb hv
      refine ⟨e, ?_, by omega⟩
      split
      next w heq =>
        split
        next hw => exact he
        next hw => exact List.mem_cons_of_mem _ he
      next heq => exact he

/-- C3: with embedding enabled and a truthy key, every chunk gets a
persisted chunk file regardless of embedding outcomes (no abort), a
chunk whose embedding call fails has no vector record, and a chunk
whose embedding call returns a non-empty vector has one; in the
3-chunk scenario with a failure on chunk 2 only, this gives 3 files
with chunks 1 and 3 vector-present and chunk 2 vector-absent. -/
theorem claim_C3 {F : Type} (chunks : List (List Char)) (api_key : Option String)
    (hkey : pyTruthyStr api_key = true)
    (generate_embedding : List Char → Option (List F)) :
    (save_chunks chunks true api_key generate_embedding).1.length = chunks.length ∧
    (∀ (k : Nat) (hk : k < chunks.length),
      generate_embedding (chunks.get ⟨k, hk⟩) = none →
      ∀ e ∈ (save_chunks chunks true api_key generate_embedding).2, e.chunk_id ≠ k + 1) ∧
    (∀ (k : Nat) (hk : k < chunks.length) (v : List F),
      generate_embedding (chunks.get ⟨k, hk⟩) = some v → v.isEmpty = false →
      ∃ e ∈ (save_chunks chunks true api_key generate_embedding).2, e.chunk_id = k + 1) := by
  refine ⟨saveChunksLoop_files_length _ _ _ _ 1 chunks, ?_, ?_⟩
  · intro k hk hnone e he hid
    obtain ⟨k', hk', v, h1, h2, h3⟩ :=
      saveChunksLoop_entries_spec _ _ _ _ chunks 1 e he
    obtain rfl : k' = k := by omega
    rw [hnone] at h2
    exact Option.noConfusion h2
  · intro k hk v hemb hv
    have := saveChunksLoop_entries_present chunks.length true api_key generate_embedding
      (by simp [hkey]) chunks 1 k hk v hemb hv
    simpa [Nat.add_comm 1 k] using this

theorem claim_C3_witness :
    (save_chunks ["a".data, "b".data, "c".data] true (some "key")
      (fun c => if c = "b".data then none else some ([1] : List Nat))).1.length = 3 ∧
    (∀ e ∈ (save_chunks ["a".data, "b".data, "c".data] true (some "key")
      (fun c => if c = "b".data then none else some ([1] : List Nat))).2,
      e.chunk_id ≠ 2) ∧
    (∃ e ∈ (save_chunks ["a".data, "b".data, "c".data] true (some "key")
      (fun c => if c = "b".data then none else some ([1] : List Nat))).2,
      e.chunk_id = 1) ∧
    (∃ e ∈ (save_chunks ["a".data, "b".data, "c".data] true (some "key")
      (fun c => if c = "b".data then none else some ([1] : List Nat))).2,
      e.chunk_id = 3) :=
  ⟨(claim_C3 ["a".data, "b".data, "c".data] (some "key") (by decide)
      (fun c => if c = "b".data then none else some ([1] : List Nat))).1,
    (claim_C3 ["a".data, "b".data, "c".data] (some "key") (by decide)
      (fun c => if c = "b".data then none else some ([1] : List Nat))).2.1 1 (by decide) rfl,
    (claim_C3 ["a".data, "b".data, "c".data] (some "key") (by decide)
      (fun c => if c = "b".data then none else some ([1] : List Nat))).2.2 0 (by decide)
      [1] rfl rfl,
    (claim_C3 ["a".data, "b".data, "c".data] (some "key") (by decide)
      (fun c => if c = "b".data then none else some ([1] : List Nat))).2.2 2 (by decide)
      [1] rfl rfl⟩

lemma sentSplitAux_delim :
    ∀ (chars : List Char) (inRun : Bool) (prev : Option Char) (seg : List Char),
      (inRun = false → ∀ p, prev = some p → seg.head? = some p) →
      ∀ (i : Nat) (s : List Char),
        i + 1 < (sentSplitAux chars inRun prev seg).length →
        (sentSplitAux chars inRun prev seg).get? i = some s →
        ∃ (s' : List Char) (d : Char), s = s' ++ [d] ∧ isSentDelim d = true := by
  intro chars
  induction chars with
  | nil =>
    intro inRun prev seg hinv i s h
    simp [sentSplitAux] at h
  | cons c rest ih =>
    intro inRun prev seg hinv i s h hg
    cases inRun with
    | true =>
      by_cases hws : pyIsSpace c
      · rw [show sentSplitAux (c :: rest) true prev seg = sentSplitAux rest true none []
          from by simp [sentSplitAux, hws]] at h hg
        exact ih true none [] (fun hF => absurd hF (by decide)) i s h hg
      · rw [show sentSplitAux (c :: rest) true prev seg
            = sentSplitAux rest false (some c) [c]
          from by simp [sentSplitAux, hws]] at h hg
        refine ih false (some c) [c] ?_ i s h hg
        intro _ p hp
        rw [← Option.some.inj hp]
        rfl
    | false =>
      rcases prev with _ | p
      · rw [show sentSplitAux (c :: rest) false none seg
            = sentSplitAux rest false (some c) (c :: seg)
          from by simp [sentSplitAux]] at h hg
        refine ih false (some c) (c :: seg) ?_ i s h hg
        intro _ p hp
        rw [← Option.some.inj hp]
        rfl
      · by_cases hm : (isSentDelim p && pyIsSpace c) = true
        · rw [show sentSplitAux (c :: rest) false (some p) seg
              = seg.reverse :: sentSplitAux rest true none []
            from by simp [sentSplitAux, hm]] at h hg
          cases i with
          | zero =>
            obtain rfl : seg.reverse = s := by simpa using hg
            have hd : isSentDelim p = true := by
              simp only [Bool.and_eq_true] at hm
              exact hm.1
            have hh := hinv rfl p rfl
            rcases seg with _ | ⟨q, seg'⟩
            · simp at hh
            · have hqp : q = p := by simpa using hh
              subst hqp
              exact ⟨seg'.reverse, q, by simp, hd⟩
          | succ i' =>
            refine ih true none [] (fun hF => absurd hF (by decide)) i' s ?_
              (by simpa using hg)
            simp only [List.length_cons] at h
            omega
        · rw [show sentSplitAux (c :: rest) false (some p) seg
              = sentSplitAux rest false (some c) (c :: seg)
            from by simp [sentSplitAux, hm]] at h hg
          refine ih false (some c) (c :: seg) ?_ i s h hg
          intro _ p' hp
          rw [← Option.some.inj hp]
          rfl

/-- C7: the sentence split puts each boundary delimiter at the tail of
the preceding raw segment (every raw segment but the last ends in one
of the delimiter characters), and on the spec's example the chunker
yields exactly the three sentences, each retaining its terminal
punctuation mark. -/
theorem claim_C7 :
    (∀ (t : List Char) (i : Nat) (s : List Char),
      i + 1 < (sentSplitAux t false none []).length →
      (sentSplitAux t false none []).get? i = some s →
      ∃ (s' : List Char) (d : Char), s = s' ++ [d] ∧ isSentDelim d = true) ∧
    chunk_text "First sentence. Second sentence! Third sentence?".data "sentence" 1000 200
      = Except.ok
        ["First sentence.".data, "Second sentence!".data, "Third sentence?".data] ∧
    "First sentence.".data.getLast? = some '.' ∧
    "Second sentence!".data.getLast? = some '!' ∧
    "Third sentence?".data.getLast? = some '?' :=
  ⟨fun t i s h hg =>
    sentSplitAux_delim t false none [] (fun _ p hp => Option.noConfusion hp) i s h hg,
    rfl, rfl, rfl, rfl⟩

theorem claim_C7_witness :
    (0 + 1 < (sentSplitAux "First sentence. Second sentence! Third sentence?".data
        false none []).length ∧
      (sentSplitAux "First sentence. Second sentence! Third sentence?".data
        false none []).get? 0 = some "First sentence.".data) ∧
    ∃ (s' : List Char) (d : Char),
      "First sentence.".data = s' ++ [d] ∧ isSentDelim d = true :=
  ⟨⟨by decide, rfl⟩,
    claim_C7.1 "First sentence. Second sentence! Third sentence?".data 0
      "First sentence.".data (by decide) rfl⟩

/-- C8: chunk_text fails with UnsupportedStrategy on any unrecognized
strategy name, and on the three recognized names delegates to the
matching chunker applied to the unchanged text. -/
theorem claim_C8 (t : List Char) (chunk_size overlap : Int) (strategy : String) :
    (strategy ≠ "fixed" → strategy ≠ "sentence" → strategy ≠ "paragraph" →
      chunk_text t strategy chunk_size overlap
        = Except.error ChunkError.unsupportedStrategy) ∧
    chunk_text t "fixed" chunk_size overlap = chunk_text_fixed_size t chunk_size overlap ∧
    chunk_text t "sentence" chunk_size overlap = Except.ok (chunk_text_by_sentences t) ∧
    chunk_text t "paragraph" chunk_size overlap
      = Except.ok (chunk_text_by_paragraphs t) := by
  refine ⟨?_, rfl, rfl, rfl⟩
  intro h1 h2 h3
  unfold chunk_text
  rw [if_neg (by simpa using h1), if_neg (by simpa using h2), if_neg (by simpa using h3)]

theorem claim_C8_witness :
    ("nonsense" ≠ "fixed" ∧ "nonsense" ≠ "sentence" ∧ "nonsense" ≠ "paragraph") ∧
    chunk_text "x".data "nonsense" 1000 200
      = Except.error ChunkError.unsupportedStrategy :=
  ⟨⟨by decide, by decide, by decide⟩,
    (claim_C8 "x".data 1000 200 "nonsense").1 (by decide) (by decide) (by decide)⟩

lemma containsSub_eq_true (pat s : List Char) : containsSub pat s = true ↔ pat <:+: s := by
  unfold containsSub
  rw [List.any_eq_true]
  constructor
  · rintro ⟨t, ht, hp⟩
    exact List.infix_iff_prefix_suffix.mpr
      ⟨t, List.isPrefixOf_iff_prefix.mp hp, (List.mem_tails _ _).mp ht⟩
  · intro h
    obtain ⟨t, hp, hs⟩ := List.infix_iff_prefix_suffix.mp h
    exact ⟨t, (List.mem_tails _ _).mpr hs, List.isPrefixOf_iff_prefix.mpr hp⟩

lemma not_infix_of_containsSub {pat s : List Char} (h : containsSub pat s = false) :
    ¬ pat <:+: s := by
  intro hi
  rw [← containsSub_eq_true pat s] at hi
  rw [h] at hi
  exact Bool.false_ne_true hi

lemma removeAllAux_nil (pat : List Char) : ∀ f : Nat, removeAllAux pat f [] = [] := by
  intro f
  cases f <;> rfl

lemma removeAllAux_fuel (pat : List Char) (hpat : pat ≠ []) :
    ∀ (m : Nat) (s : List Char), s.length ≤ m → ∀ (f : Nat), s.length ≤ f →
      removeAllAux pat f s = removeAllAux pat m s := by
  intro m
  induction m using Nat.strong_induction_on with
  | _ m ih =>
    intro s hsm f hsf
    cases s with
    | nil => rw [removeAllAux_nil, removeAllAux_nil]
    | cons c rest =>
      have hplen : 1 ≤ pat.length := by
        cases pat
        · exact absurd rfl hpat
        · simp
      have hlen : (c :: rest).length = rest.length + 1 := by simp
      obtain ⟨m', rfl⟩ : ∃ m', m = m' + 1 := ⟨m - 1, by omega⟩
      obtain ⟨f', rfl⟩ : ∃ f', f = f' + 1 := ⟨f - 1, by omega⟩
      simp only [removeAllAux]
      by_cases hp : pat.isPrefixOf (c :: rest)
      · rw [if_pos hp, if_pos hp]
        exact ih m' (by omega) (rest.drop (pat.length - 1))
          (by simp only [List.length_drop]; omega) f'
          (by simp only [List.length_drop]; omega)
      · rw [if_neg hp, if_neg hp]
        congr 1
        exact ih m' (by omega) rest (by omega) f' (by omega)

lemma removeAllAux_no_occ (pat : List Char) :
    ∀ (f : Nat) (s : List Char), ¬ pat <:+: s → removeAllAux pat f s = s := by
  intro f
  induction f with
  | zero => intro s h; rfl
  | succ f ih =>
    intro s h
    cases s with
    | nil => rfl
    | cons c rest =>
      simp only [removeAllAux]
      rw [if_neg ?hp]
      case hp =>
        intro hp
        exact h (List.infix_iff_prefix_suffix.mpr
          ⟨c :: rest, List.isPrefixOf_iff_prefix.mp hp, List.suffix_rfl⟩)
      congr 1
      exact ih rest (fun hi => h (List.infix_cons hi))

lemma removeAll_eq_self (pat s : List Char) (h : ¬ pat <:+: s) : removeAll pat s = s :=
  removeAllAux_no_occ pat s.length s h

lemma removeAll_first_occurrence (pat : List Char) (hpat : pat ≠ [])
    (hborder : ∀ k, 0 < k → k < pat.length → pat.drop k ≠ pat.take (pat.length - k)) :
    ∀ (u v : List Char), ¬ pat <:+: u →
      removeAll pat (u ++ pat ++ v) = u ++ removeAll pat v := by
  have hplen : 1 ≤ pat.length := by
    cases pat
    · exact absurd rfl hpat
    · simp
  intro u
  induction u with
  | nil =>
    intro v hu
    obtain ⟨p, pt, rfl⟩ : ∃ p pt, pat = p :: pt := by
      cases pat
      · exact absurd rfl hpat
      · exact ⟨_, _, rfl⟩
    simp only [List.nil_append]
    unfold removeAll
    rw [show (p :: pt) ++ v = p :: (pt ++ v) from rfl,
      show (p :: (pt ++ v)).length = (pt ++ v).length + 1 from by simp]
    simp only [removeAllAux]
    rw [if_pos (List.isPrefixOf_iff_prefix.mpr ⟨v, by simp⟩),
      show (p :: pt).length - 1 = pt.length from by simp, List.drop_left]
    exact removeAllAux_fuel (p :: pt) hpat v.length v le_rfl (pt ++ v).length (by simp)
  | cons a u' ih =>
    intro v hu
    unfold removeAll
    rw [show (a :: u') ++ pat ++ v = a :: (u' ++ pat ++ v) from by simp,
      show (a :: (u' ++ pat ++ v)).length = (u' ++ pat ++ v).length + 1 from by simp]
    simp only [removeAllAux]
    rw [if_neg ?hp]
    case hp =>
      intro hp
      have hp' : pat = ((a :: u') ++ (pat ++ v)).take pat.length := by
        have := List.prefix_iff_eq_take.mp (List.isPrefixOf_iff_prefix.mp hp)
        simpa using this
      rw [List.take_append_eq_append_take] at hp'
      rcases le_or_lt pat.length (a :: u').length with hc | hc
      · rw [show pat.length - (a :: u').length = 0 from by omega] at hp'
        simp only [List.take_zero, List.append_nil] at hp'
        refine hu (List.infix_iff_prefix_suffix.mpr ⟨a :: u', ?_, List.suffix_rfl⟩)
        rw [List.prefix_iff_eq_take]
        exact hp'
      · rw [List.take_of_length_le (by omega), List.take_append_eq_append_take,
          show pat.length - (a :: u').length - pat.length = 0 from by omega] at hp'
        simp only [List.take_zero, List.append_nil] at hp'
        have hdrop : pat.drop (a :: u').length
            = pat.take (pat.length - (a :: u').length) := by
          conv_lhs => rw [hp']
          rw [List.drop_left]
        exact hborder (a :: u').length (by simp) hc hdrop
    congr 1
    exact ih v (fun h => hu (List.infix_cons h))

/-- C9 (counterexample): on a wrapped document whose body itself
contains the literal string `</div>`, the sanitization removes the
inner occurrence too (Python `str.replace` replaces every occurrence):
the text handed to the chunker is `ab`, with no `</div>` left in it,
not the claimed body with the inner literal unchanged. -/
theorem claim_C9_counterexample :
    sanitize_content "<div dir=\"rtl\">\n\na</div>b\n\n</div>".data = "ab".data ∧
    sanitize_content "<div dir=\"rtl\">\n\na</div>b\n\n</div>".data ≠ "a</div>b".data ∧
    containsSub rtlClose
      (sanitize_content "<div dir=\"rtl\">\n\na</div>b\n\n</div>".data) = false := by
  refine ⟨rfl, ?_, rfl⟩
  intro h
  rw [show sanitize_content "<div dir=\"rtl\">\n\na</div>b\n\n</div>".data = "ab".data
    from rfl] at h
  simp at h

/-- C9 (amended): the sanitization removes every left-to-right
occurrence of the two literal wrapper strings, not only the enclosing
pair: on any text of the shape u ++ "</div>" ++ v in which the opening
literal does not occur and u is free of the closing literal, the first
closing literal — wherever it stands, inside the body included — is
removed and removal continues in v. -/
theorem claim_C9_amended (u v : List Char)
    (hclose : containsSub rtlClose u = false)
    (hopen : containsSub rtlOpen (u ++ rtlClose ++ v) = false) :
    sanitize_content (u ++ rtlClose ++ v) = pyStrip (u ++ removeAll rtlClose v) := by
  unfold sanitize_content
  rw [removeAll_eq_self rtlOpen _ (not_infix_of_containsSub hopen),
    removeAll_first_occurrence rtlClose (by decide) ?hb u v
      (not_infix_of_containsSub hclose)]
  case hb =>
    intro k h1 h2
    have h6 : rtlClose.length = 6 := rfl
    rw [h6] at h2
    interval_cases k <;> decide

theorem claim_C9_amended_witness :
    containsSub rtlClose "a".data = false ∧
    containsSub rtlOpen ("a".data ++ rtlClose ++ "b".data) = false ∧
    sanitize_content ("a".data ++ rtlClose ++ "b".data)
      = pyStrip ("a".data ++ removeAll rtlClose "b".data) :=
  ⟨rfl, rfl, claim_C9_amended "a".data "b".data rfl rfl⟩
